import Mathlib

/-!
Verification development for the idle-game simulation engine
(goods catalog, producers, production tick, ore minigame, game clock,
element-handle allocation), shallowly embedded from the Rust sources
`src/idle/goods.rs`, `src/idle/producers.rs`, `src/idle/ores.rs`,
`src/idle/element.rs` and `src/idle/mod.rs`.

Rational quantities (`BigRational` in the source) are embedded as `ℚ`;
`HashMap<Good, F>` inventories are embedded as total functions
`Good → ℚ` (the source reads absent keys as zero via `unwrap_or` /
`or_insert`); the catalog's `HashMap` rate tables, which are small
literal maps with pairwise distinct keys, are embedded as association
lists; `HashMap<usize, Element>` is embedded as an association list of
handle/element pairs.
-/

/-- The goods enumeration of `src/idle/goods.rs`. -/
inductive Good where
  | Money
  | IronOre
  | GoldOre
  | SilverOre
  | Coal
deriving DecidableEq, Repr

/-- The good-group enumeration of `src/idle/goods.rs`. -/
inductive GoodGroup where
  | Money
  | Ore
deriving DecidableEq, Repr

/-- `GoodProperties` from `src/idle/goods.rs`. -/
structure GoodProperties where
  name : String
  group : GoodGroup
  difficulty : ℕ
deriving DecidableEq, Repr

/-- `Good::properties` from `src/idle/goods.rs`. -/
def Good.properties : Good → GoodProperties
  | Good.Money => ⟨"Money", GoodGroup.Money, 0⟩
  | Good.IronOre => ⟨"Iron Ore", GoodGroup.Ore, 3⟩
  | Good.GoldOre => ⟨"Gold Ore", GoodGroup.Ore, 5⟩
  | Good.SilverOre => ⟨"Silver Ore", GoodGroup.Ore, 4⟩
  | Good.Coal => ⟨"Coal", GoodGroup.Ore, 3⟩

/-- The producer enumeration of `src/idle/producers.rs`. -/
inductive Producer where
  | None
  | GravityDrill (good : Good)
  | CoalDrill (good : Good)
deriving DecidableEq, Repr

/-- `ProducerProperties` from `src/idle/producers.rs`; the `outputs`
and `inputs` hash maps are embedded as association lists. -/
structure ProducerProperties where
  name : String
  cost : ℚ
  outputs : List (Good × ℚ)
  inputs : List (Good × ℚ)

/-- `Producer::properties` from `src/idle/producers.rs`. -/
def Producer.properties : Producer → ProducerProperties
  | Producer.None => ⟨"None", 0, [], []⟩
  | Producer.GravityDrill good => ⟨"Gravity Drill", 10, [(good, 1)], []⟩
  | Producer.CoalDrill good =>
      ⟨"Coal Drill", 10, [(good, 1)], [(Good.Coal, 1/4)]⟩

/-- The player inventory, `HashMap<Good, F>` in `src/idle/mod.rs`,
embedded as a total function (the source reads a missing key as zero
with `unwrap_or` and writes through `entry(..).or_insert(0)`). -/
abbrev Inventory := Good → ℚ

/-- Pointwise update of an inventory at one key. -/
def Inventory.update (inv : Inventory) (g : Good) (q : ℚ) : Inventory :=
  fun x => if x = g then q else inv x

/-- `Producer::has_enough_inputs` from `src/idle/producers.rs`:
`false` as soon as some input entry `(good, amount)` has
`inventory[good] < amount * tick_rate`. -/
def Producer.has_enough_inputs (p : Producer) (inventory : Inventory)
    (tick_rate : ℚ) : Bool :=
  p.properties.inputs.all fun e => !(inventory e.1 < e.2 * tick_rate)

/-- `Producer::tick_inventory` from `src/idle/producers.rs`: first
credit every output entry by `amount * tick_rate`, then debit every
input entry by `amount * tick_rate`. -/
def Producer.tick_inventory (p : Producer) (inventory : Inventory)
    (tick_rate : ℚ) : Inventory :=
  let credited := p.properties.outputs.foldl
    (fun acc e => acc.update e.1 (acc e.1 + e.2 * tick_rate)) inventory
  p.properties.inputs.foldl
    (fun acc e => acc.update e.1 (acc e.1 - e.2 * tick_rate)) credited

/-- `Producer::tick` from `src/idle/producers.rs`: all-or-nothing —
mutate the inventory only when every input is affordable for the whole
tick. -/
def Producer.tick (p : Producer) (inventory : Inventory)
    (tick_rate : ℚ) : Inventory :=
  if p.has_enough_inputs inventory tick_rate
  then p.tick_inventory inventory tick_rate
  else inventory

/-- Total rate an association list of rate entries contributes to one
good (sum of the rates of the entries whose key is that good). -/
def keySum (entries : List (Good × ℚ)) (g : Good) : ℚ :=
  (entries.map fun e => if e.1 = g then e.2 else 0).sum

/-- `Vec::swap(i, j)` on a list: exchange the elements at positions
`i` and `j` (identity when either index is out of bounds; the source
only swaps in-bounds indices). -/
def listSwap (l : List ℕ) (i j : ℕ) : List ℕ :=
  match l.get? i, l.get? j with
  | some x, some y => (l.set i y).set j x
  | _, _ => l

/-- The Fisher–Yates loop of `rand`'s `SliceRandom::shuffle`, as called
by `src/idle/ores.rs`: for `i` from `len - 1` down to `1`, swap
position `i` with a drawn position in `0..=i`.  The random source is
embedded as a function `rng` giving the draw for each `i`; `% (i + 1)`
realises `gen_range(0..=i)`. -/
def shuffleAux (rng : ℕ → ℕ) : List ℕ → ℕ → List ℕ
  | l, 0 => l
  | l, k + 1 => shuffleAux rng (listSwap l (k + 1) (rng (k + 1) % (k + 2))) k

/-- `vec.shuffle(&mut rng)` from `src/idle/ores.rs` (library call into
`rand`), over an abstract random source. -/
def shuffle (l : List ℕ) (rng : ℕ → ℕ) : List ℕ :=
  shuffleAux rng l (l.length - 1)

/-- `OreMinigame` from `src/idle/ores.rs`. -/
structure OreMinigame where
  order : List ℕ
  next : ℕ
  difficulty : ℕ
  failed : Bool
deriving DecidableEq, Repr

/-- `OreMinigame::new` from `src/idle/ores.rs`: `order` is
`(1..=difficulty).collect()` shuffled, `next = 1`, `failed = false`;
the thread-local random generator is embedded as the `rng` argument. -/
def OreMinigame.new (difficulty : ℕ) (rng : ℕ → ℕ) : OreMinigame :=
  ⟨shuffle (List.range' 1 difficulty) rng, 1, difficulty, false⟩

/-- `OreMinigame::is_failed` from `src/idle/ores.rs`. -/
def OreMinigame.is_failed (om : OreMinigame) : Bool := om.failed

/-- `OreMinigame::is_solved` from `src/idle/ores.rs`: the next button
to click is greater than the difficulty. -/
def OreMinigame.is_solved (om : OreMinigame) : Bool :=
  om.difficulty < om.next

/-- `OreMinigame::reset` from `src/idle/ores.rs`:
`*self = Self::new(self.difficulty)`. -/
def OreMinigame.reset (om : OreMinigame) (rng : ℕ → ℕ) : OreMinigame :=
  OreMinigame.new om.difficulty rng

/-- One frame of `OreMinigame::ui` from `src/idle/ores.rs` in which the
button displaying value `v` receives the click.  The button is added
with `ui.add_enabled(value >= &self.next, ..)`, so a click registers
only when `self.next <= v`; the click handler then increments `next`
when `v == next` and sets `failed` otherwise. -/
def OreMinigame.ui (om : OreMinigame) (v : ℕ) : OreMinigame :=
  if om.next ≤ v then
    if v = om.next then { om with next := om.next + 1 }
    else { om with failed := true }
  else om

/-- `ElemVariant` from `src/idle/element.rs`. -/
inductive ElemVariant where
  | Blank
  | Good (good : Good)
  | Producer (p : Producer)

/-- `Element` from `src/idle/element.rs`. -/
structure Element where
  variant : ElemVariant
  window_id : String
  is_open : Bool

/-- `GameState` from `src/idle/mod.rs`; the `HashMap<usize, Element>`
of elements is embedded as an association list of handle/element
pairs, and the per-good minigame map as an association list. -/
structure GameState where
  inventory : Inventory
  ore_minigames : List (Good × OreMinigame)
  elements : List (ℕ × Element)

/-- `GameState::tick` from `src/idle/mod.rs`: run `Producer::tick` for
every producer element, threading the inventory through. -/
def GameState.tick (s : GameState) (tick_rate : ℚ) : GameState :=
  { s with inventory := s.elements.foldl (fun inv e =>
      match e.2.variant with
      | ElemVariant.Producer p => p.tick inv tick_rate
      | _ => inv) s.inventory }

/-- A sequence of engine tick calls: fold `GameState::tick` over a
list of time slices. -/
def GameState.tickSeq (s : GameState) (dts : List ℚ) : GameState :=
  dts.foldl (fun st dt => st.tick dt) s

/-- One `entry(*good).or_insert((0,0)).0 += amount` step of
`production_table_theoretical` (output side). -/
def tableEntryOut (tbl : Good → Option (ℚ × ℚ)) (e : Good × ℚ) :
    Good → Option (ℚ × ℚ) :=
  fun g => if g = e.1
    then some (((tbl e.1).getD (0, 0)).1 + e.2, ((tbl e.1).getD (0, 0)).2)
    else tbl g

/-- One `entry(*good).or_insert((0,0)).1 += amount` step of
`production_table_theoretical` (input side). -/
def tableEntryIn (tbl : Good → Option (ℚ × ℚ)) (e : Good × ℚ) :
    Good → Option (ℚ × ℚ) :=
  fun g => if g = e.1
    then some (((tbl e.1).getD (0, 0)).1, ((tbl e.1).getD (0, 0)).2 + e.2)
    else tbl g

/-- The per-producer body of `production_table_theoretical`: add all
output entries, then all input entries, of one producer. -/
def tableAddProducer (tbl : Good → Option (ℚ × ℚ)) (p : Producer) :
    Good → Option (ℚ × ℚ) :=
  p.properties.inputs.foldl tableEntryIn
    (p.properties.outputs.foldl tableEntryOut tbl)

/-- The per-element step of `production_table_theoretical`: producer
elements contribute their catalog rates, other elements are skipped. -/
def tableStep (tbl : Good → Option (ℚ × ℚ)) (e : ℕ × Element) :
    Good → Option (ℚ × ℚ) :=
  match e.2.variant with
  | ElemVariant.Producer p => tableAddProducer tbl p
  | _ => tbl

/-- `GameState::production_table_theoretical` from `src/idle/mod.rs`:
starting from an empty map, fold every producer element's outputs and
inputs into a `Good → (output_sum, input_sum)` table; the resulting
`HashMap<Good, (F, F)>` is embedded as `Good → Option (ℚ × ℚ)` with
`none` for absent keys. -/
def GameState.production_table_theoretical (s : GameState) :
    Good → Option (ℚ × ℚ) :=
  s.elements.foldl tableStep (fun _ => none)

/-- Whether a producer's catalog outputs or inputs mention a good. -/
def producerMentions (p : Producer) (g : Good) : Bool :=
  p.properties.outputs.any (fun e => e.1 = g)
    || p.properties.inputs.any (fun e => e.1 = g)

/-- Whether one element is a producer element mentioning a good. -/
def elemMentions (e : ℕ × Element) (g : Good) : Bool :=
  match e.2.variant with
  | ElemVariant.Producer p => producerMentions p g
  | _ => false

/-- One element's unscaled catalog output rate for a good. -/
def elemOutRate (e : ℕ × Element) (g : Good) : ℚ :=
  match e.2.variant with
  | ElemVariant.Producer p => keySum p.properties.outputs g
  | _ => 0

/-- One element's unscaled catalog input rate for a good. -/
def elemInRate (e : ℕ × Element) (g : Good) : ℚ :=
  match e.2.variant with
  | ElemVariant.Producer p => keySum p.properties.inputs g
  | _ => 0

/-- Whether some producer element of the collection mentions a good. -/
def elementsMentions : List (ℕ × Element) → Good → Bool
  | [], _ => false
  | e :: rest, g => elemMentions e g || elementsMentions rest g

/-- Sum over the producer elements of the collection of one good's
unscaled catalog output rate. -/
def elementsOutRate : List (ℕ × Element) → Good → ℚ
  | [], _ => 0
  | e :: rest, g => elemOutRate e g + elementsOutRate rest g

/-- Sum over the producer elements of the collection of one good's
unscaled catalog input rate. -/
def elementsInRate : List (ℕ × Element) → Good → ℚ
  | [], _ => 0
  | e :: rest, g => elemInRate e g + elementsInRate rest g

/-- `IdleGame` from `src/idle/mod.rs`, restricted to the simulation
fields the update loop touches; the `chrono` timestamp is embedded as
a whole number of milliseconds. -/
structure IdleGame where
  prev_time : ℤ
  game_timer : ℚ
  game_state : GameState

/-- The fixed tick duration of `IdleGame::update` (`1/20` second). -/
def IdleGame.tick_rate : ℚ := 1 / 20

/-- The per-frame tick cap of `IdleGame::update` (100). -/
def IdleGame.tick_limit : ℕ := 100

/-- The catch-up while-loop of `IdleGame::update`: while the timer
covers a full tick and fewer than `n` iterations have run, tick the
game state and subtract one tick duration; returns the final state,
the residual timer, and the number of ticks performed. -/
def IdleGame.catchUp : GameState → ℚ → ℕ → GameState × ℚ × ℕ
  | s, timer, 0 => (s, timer, 0)
  | s, timer, n + 1 =>
      if IdleGame.tick_rate ≤ timer then
        let r := IdleGame.catchUp (s.tick IdleGame.tick_rate)
          (timer - IdleGame.tick_rate) n
        (r.1, r.2.1, r.2.2 + 1)
      else (s, timer, 0)

/-- The simulation part of `IdleGame::update` from `src/idle/mod.rs`:
convert elapsed milliseconds to seconds, accumulate into `game_timer`,
set `prev_time = now`, and run the bounded catch-up loop.  Returns the
updated game and the number of ticks performed. -/
def IdleGame.update (g : IdleGame) (now : ℤ) : IdleGame × ℕ :=
  let millis_passed : ℤ := now - g.prev_time
  let seconds_passed : ℚ := (millis_passed : ℚ) / 1000
  let timer : ℚ := g.game_timer + seconds_passed
  let r := IdleGame.catchUp g.game_state timer IdleGame.tick_limit
  (⟨now, r.2.1, r.1⟩, r.2.2)

/-- `HashMap::insert` on the element collection: replace the entry
with the given handle if present, else append it. -/
def elementsInsert (es : List (ℕ × Element)) (k : ℕ) (e : Element) :
    List (ℕ × Element) :=
  if es.any (fun q => q.1 = k)
  then es.map (fun q => if q.1 = k then (k, e) else q)
  else es ++ [(k, e)]

/-- `HashMap::remove` on the element collection. -/
def elementsRemove (es : List (ℕ × Element)) (k : ℕ) :
    List (ℕ × Element) :=
  es.filter fun q => q.1 != k

/-- The "Add blank window" handler of `IdleGame::update`
(`src/idle/mod.rs`): allocate `next_window_id` from
`self.game_state.elements.len()` and insert a blank element under that
handle.  The drill-adding handlers use the same
`next_id = elements.len()` scheme. -/
def addBlankWindow (es : List (ℕ × Element)) : List (ℕ × Element) :=
  let next_window_id := es.length
  elementsInsert es next_window_id
    ⟨ElemVariant.Blank, "Blank " ++ toString next_window_id, true⟩

/-- The all-zero inventory. -/
def invZero : Inventory := fun _ => 0

/-- An inventory holding `1/8` coal (half of what a coal drill needs
for a one-second tick) and nothing else. -/
def invHalfCoal : Inventory := fun g => if g = Good.Coal then 1 / 8 else 0

/-- A sample element collection holding one iron-ore coal drill. -/
def sampleElements : List (ℕ × Element) :=
  [(0, ⟨ElemVariant.Producer (Producer.CoalDrill Good.IronOre),
        "0: Iron Ore Coal Drill", false⟩)]

/-- A sample game state: zero inventory, one iron-ore coal drill. -/
def sampleState : GameState := ⟨invZero, [], sampleElements⟩

/-- A sample idle game at timestamp 0 with an empty tick accumulator
and no elements. -/
def sampleIdle : IdleGame := ⟨0, 0, ⟨invZero, [], []⟩⟩

theorem keySum_nil (g : Good) : keySum [] g = 0 := rfl

theorem keySum_cons (e : Good × ℚ) (entries : List (Good × ℚ)) (g : Good) :
    keySum (e :: entries) g =
      (if e.1 = g then e.2 else 0) + keySum entries g := by
  simp [keySum]

/-- The crediting fold of `tick_inventory`, pointwise. -/
theorem foldl_credit_apply (entries : List (Good × ℚ)) (inv : Inventory)
    (dt : ℚ) (g : Good) :
    (entries.foldl (fun acc e => acc.update e.1 (acc e.1 + e.2 * dt)) inv) g
      = inv g + keySum entries g * dt := by
  induction entries generalizing inv with
  | nil => simp [keySum_nil]
  | cons e rest ih =>
      rw [List.foldl_cons, ih, keySum_cons]
      by_cases h : g = e.1
      · subst h
        simp [Inventory.update]
        ring
      · have h' : e.1 ≠ g := fun hh => h hh.symm
        simp [Inventory.update, h, h']

/-- The debiting fold of `tick_inventory`, pointwise. -/
theorem foldl_debit_apply (entries : List (Good × ℚ)) (inv : Inventory)
    (dt : ℚ) (g : Good) :
    (entries.foldl (fun acc e => acc.update e.1 (acc e.1 - e.2 * dt)) inv) g
      = inv g - keySum entries g * dt := by
  induction entries generalizing inv with
  | nil => simp [keySum_nil]
  | cons e rest ih =>
      rw [List.foldl_cons, ih, keySum_cons]
      by_cases h : g = e.1
      · subst h
        simp [Inventory.update]
        ring
      · have h' : e.1 ≠ g := fun hh => h hh.symm
        simp [Inventory.update, h, h']

/-- `tick_inventory`, pointwise: credit the output key-sum, debit the
input key-sum. -/
theorem tick_inventory_apply (p : Producer) (inv : Inventory) (dt : ℚ)
    (g : Good) :
    p.tick_inventory inv dt g
      = inv g + keySum p.properties.outputs g * dt
          - keySum p.properties.inputs g * dt := by
  unfold Producer.tick_inventory
  rw [foldl_debit_apply, foldl_credit_apply]

theorem has_enough_inputs_eq_false_iff (p : Producer) (inv : Inventory)
    (dt : ℚ) :
    p.has_enough_inputs inv dt = false
      ↔ ∃ e ∈ p.properties.inputs, inv e.1 < e.2 * dt := by
  simp [Producer.has_enough_inputs, List.all_eq_false]

theorem tick_of_has_enough_false (p : Producer) (inv : Inventory) (dt : ℚ)
    (h : p.has_enough_inputs inv dt = false) :
    p.tick inv dt = inv := by
  simp [Producer.tick, h]

theorem tick_of_has_enough_true (p : Producer) (inv : Inventory) (dt : ℚ)
    (h : p.has_enough_inputs inv dt = true) :
    p.tick inv dt = p.tick_inventory inv dt := by
  simp [Producer.tick, h]

/-- A producer tick never drives a non-negative inventory negative
(all-or-nothing: the tick only runs when every input is affordable). -/
theorem producer_tick_nonneg (p : Producer) (inv : Inventory) (dt : ℚ)
    (hinv : ∀ g, 0 ≤ inv g) (hdt : 0 ≤ dt) (g : Good) :
    0 ≤ p.tick inv dt g := by
  cases p with
  | None =>
      rw [tick_of_has_enough_true _ _ _ (by rfl), tick_inventory_apply]
      simpa [Producer.properties, keySum_nil] using hinv g
  | GravityDrill a =>
      rw [tick_of_has_enough_true _ _ _ (by rfl), tick_inventory_apply]
      have h1 : 0 ≤ keySum (Producer.GravityDrill a).properties.outputs g :=
        by by_cases h : a = g <;> simp [Producer.properties, keySum, h]
      have h2 : keySum (Producer.GravityDrill a).properties.inputs g = 0 :=
        by simp [Producer.properties, keySum]
      have := hinv g
      nlinarith [mul_nonneg h1 hdt]
  | CoalDrill a =>
      by_cases hc : inv Good.Coal < 1 / 4 * dt
      · rw [tick_of_has_enough_false]
        · exact hinv g
        · exact (has_enough_inputs_eq_false_iff _ _ _).2
            ⟨(Good.Coal, 1 / 4), by simp [Producer.properties], hc⟩
      · have henough : (Producer.CoalDrill a).has_enough_inputs inv dt
            = true := by
          simp [Producer.has_enough_inputs, Producer.properties]
          linarith
        rw [tick_of_has_enough_true _ _ _ henough, tick_inventory_apply]
        have h1 : 0 ≤ keySum (Producer.CoalDrill a).properties.outputs g :=
          by by_cases h : a = g <;> simp [Producer.properties, keySum, h]
        have hmul : 0 ≤ keySum (Producer.CoalDrill a).properties.outputs g
            * dt := mul_nonneg h1 hdt
        by_cases hg : g = Good.Coal
        · subst hg
          have h2 : keySum (Producer.CoalDrill a).properties.inputs
              Good.Coal = 1 / 4 := by simp [Producer.properties, keySum]
          rw [h2]
          linarith
        · have h2 : keySum (Producer.CoalDrill a).properties.inputs g = 0 :=
            by simp [Producer.properties, keySum, Ne.symm hg]
          rw [h2]
          have := hinv g
          linarith

/-- C1 counterexample: a coal drill needs `1/4` coal for a one-second
tick; with only `1/8` coal (enough for half the tick) the claimed
proportional policy would credit `1 × 1/2` iron ore, but
`Producer::tick` is all-or-nothing and credits nothing. -/
theorem C1_counterexample :
    Producer.tick (Producer.CoalDrill Good.IronOre) invHalfCoal 1
        Good.IronOre = 0
      ∧ Producer.tick (Producer.CoalDrill Good.IronOre) invHalfCoal 1
          Good.IronOre
        ≠ invHalfCoal Good.IronOre + 1 * (1 / 2) := by
  have hfalse : (Producer.CoalDrill Good.IronOre).has_enough_inputs
      invHalfCoal 1 = false :=
    (has_enough_inputs_eq_false_iff _ _ _).2
      ⟨(Good.Coal, 1 / 4), by simp [Producer.properties],
        by norm_num [invHalfCoal]⟩
  rw [tick_of_has_enough_false _ _ _ hfalse]
  have hne : Good.IronOre ≠ Good.Coal := by decide
  norm_num [invHalfCoal, hne]

/-- C1 (amended): `Producer::tick` is all-or-nothing — whenever the
coal balance is insufficient for the full tick (in particular when it
covers only half of it, and when it is zero), a coal drill's tick
credits no output and debits no input: the inventory is unchanged. -/
theorem C1_all_or_nothing (g : Good) (inv : Inventory) (dt : ℚ)
    (h : inv Good.Coal < 1 / 4 * dt) :
    Producer.tick (Producer.CoalDrill g) inv dt = inv := by
  apply tick_of_has_enough_false
  exact (has_enough_inputs_eq_false_iff _ _ _).2
    ⟨(Good.Coal, 1 / 4), by simp [Producer.properties], h⟩

/-- C1 witness: the amended theorem applied to the half-coal inventory
at `Δt = 1`. -/
theorem C1_all_or_nothing_witness :
    invHalfCoal Good.Coal < 1 / 4 * 1
      ∧ Producer.tick (Producer.CoalDrill Good.IronOre) invHalfCoal 1
        = invHalfCoal :=
  ⟨by norm_num [invHalfCoal],
    C1_all_or_nothing Good.IronOre invHalfCoal 1
      (by norm_num [invHalfCoal])⟩

/-- C7: a producer whose catalog inputs are empty always produces at
full rate — the tick credits exactly `rate × Δt` to each output good,
for every inventory and every time slice. -/
theorem C7_no_input_full_rate (p : Producer) (inv : Inventory) (dt : ℚ)
    (hp : p.properties.inputs = []) :
    ∀ e ∈ p.properties.outputs, p.tick inv dt e.1 = inv e.1 + e.2 * dt := by
  intro e he
  have henough : p.has_enough_inputs inv dt = true := by
    simp [Producer.has_enough_inputs, hp]
  rw [tick_of_has_enough_true _ _ _ henough, tick_inventory_apply, hp,
    keySum_nil]
  cases p with
  | None => simp [Producer.properties] at he
  | GravityDrill a =>
      simp [Producer.properties] at he
      subst he
      simp [Producer.properties, keySum]
  | CoalDrill a => simp [Producer.properties] at hp

/-- C7 witness: a gravity drill over a zero inventory at `Δt = 3`. -/
theorem C7_no_input_full_rate_witness :
    (Producer.GravityDrill Good.IronOre).properties.inputs = []
      ∧ ∀ e ∈ (Producer.GravityDrill Good.IronOre).properties.outputs,
          Producer.tick (Producer.GravityDrill Good.IronOre) invZero 3 e.1
            = invZero e.1 + e.2 * 3 :=
  ⟨rfl, C7_no_input_full_rate (Producer.GravityDrill Good.IronOre)
    invZero 3 rfl⟩

/-- C10: when some input good's balance is strictly below that input's
rate times the time slice, `Producer::tick` leaves the inventory
entirely unchanged — nothing credited, nothing debited. -/
theorem C10_insufficient_input_unchanged (p : Producer) (inv : Inventory)
    (dt : ℚ) (h : ∃ e ∈ p.properties.inputs, inv e.1 < e.2 * dt) :
    p.tick inv dt = inv :=
  tick_of_has_enough_false p inv dt
    ((has_enough_inputs_eq_false_iff p inv dt).2 h)

/-- C10 witness: a coal drill over the all-zero inventory at
`Δt = 1`. -/
theorem C10_insufficient_input_unchanged_witness :
    (∃ e ∈ (Producer.CoalDrill Good.IronOre).properties.inputs,
        invZero e.1 < e.2 * 1)
      ∧ Producer.tick (Producer.CoalDrill Good.IronOre) invZero 1
        = invZero :=
  ⟨⟨(Good.Coal, 1 / 4), by simp [Producer.properties],
      by norm_num [invZero]⟩,
    C10_insufficient_input_unchanged (Producer.CoalDrill Good.IronOre)
      invZero 1
      ⟨(Good.Coal, 1 / 4), by simp [Producer.properties],
        by norm_num [invZero]⟩⟩

/-- The inventory fold of `GameState::tick` preserves
non-negativity. -/
theorem foldl_elements_tick_nonneg (es : List (ℕ × Element))
    (inv : Inventory) (dt : ℚ) (hinv : ∀ g, 0 ≤ inv g) (hdt : 0 ≤ dt) :
    ∀ g, 0 ≤ (es.foldl (fun i e =>
      match e.2.variant with
      | ElemVariant.Producer p => p.tick i dt
      | _ => i) inv) g := by
  induction es generalizing inv with
  | nil => simpa using hinv
  | cons e rest ih =>
      rw [List.foldl_cons]
      cases h : e.2.variant with
      | Producer p =>
          exact fun g => by
            simpa [h] using ih (p.tick inv dt)
              (fun g' => producer_tick_nonneg p inv dt hinv hdt g') g
      | Blank => exact fun g => by simpa [h] using ih inv hinv g
      | Good a => exact fun g => by simpa [h] using ih inv hinv g

/-- `GameState::tick` preserves inventory non-negativity. -/
theorem gameState_tick_nonneg (s : GameState) (dt : ℚ)
    (hinv : ∀ g, 0 ≤ s.inventory g) (hdt : 0 ≤ dt) :
    ∀ g, 0 ≤ (s.tick dt).inventory g :=
  foldl_elements_tick_nonneg s.elements s.inventory dt hinv hdt

/-- C2: under engine control alone — any sequence of `GameState::tick`
calls with non-negative time slices — an inventory that starts
non-negative never goes negative. -/
theorem C2_engine_inventory_nonneg (s : GameState) (dts : List ℚ)
    (hdts : ∀ dt ∈ dts, 0 ≤ dt) (hinv : ∀ g, 0 ≤ s.inventory g) :
    ∀ g, 0 ≤ (s.tickSeq dts).inventory g := by
  induction dts generalizing s with
  | nil => simpa [GameState.tickSeq] using hinv
  | cons dt rest ih =>
      have h0 : 0 ≤ dt := hdts dt (List.mem_cons_self dt rest)
      have hstep := gameState_tick_nonneg s dt hinv h0
      have hrest : ∀ d ∈ rest, 0 ≤ d := fun d hd =>
        hdts d (List.mem_cons_of_mem dt hd)
      simpa [GameState.tickSeq] using ih (s.tick dt) hrest hstep

/-- C2 witness: the sample coal-drill state ticked by `1/20` and then
`1` second from the zero inventory. -/
theorem C2_engine_inventory_nonneg_witness :
    (∀ dt ∈ [(1 : ℚ) / 20, 1], 0 ≤ dt)
      ∧ (∀ g, 0 ≤ sampleState.inventory g)
      ∧ ∀ g, 0 ≤ (sampleState.tickSeq [(1 : ℚ) / 20, 1]).inventory g :=
  ⟨by intro dt hdt; fin_cases hdt <;> norm_num,
    fun g => le_refl 0,
    C2_engine_inventory_nonneg sampleState [(1 : ℚ) / 20, 1]
      (by intro dt hdt; fin_cases hdt <;> norm_num)
      (fun g => le_refl 0)⟩

/-- Pressing the expected value advances `next` by one and keeps the
rest of the session intact. -/
theorem ui_press_expected (om : OreMinigame) :
    om.ui om.next = { om with next := om.next + 1 } := by
  simp [OreMinigame.ui]

/-- Running the ascending presses `k, k+1, …, k+m-1` from `next = k`
just advances `next` to `k + m`. -/
theorem foldl_ui_ascending (m : ℕ) : ∀ (k : ℕ) (o : List ℕ) (d : ℕ),
    (List.range' k m).foldl OreMinigame.ui ⟨o, k, d, false⟩
      = ⟨o, k + m, d, false⟩ := by
  induction m with
  | zero => intro k o d; simp
  | succ m ih =>
      intro k o d
      rw [List.range'_succ, List.foldl_cons, ui_press_expected]
      have := ih (k + 1) o d
      simp only at this
      rw [this]
      congr 1
      omega

/-- C3 counterexample: a reachable in-progress session (fresh order
`[2,1,3]`, then the accepted press of `1`) in which pressing the
already-accepted value `1` (different from `next = 2`) does NOT fail
the session — the button is rendered disabled
(`add_enabled(value >= &self.next)`), so the press is ignored. -/
theorem C3_counterexample :
    (OreMinigame.new 3 (fun i => if i = 2 then 2 else 0)).order = [2, 1, 3]
      ∧ ((OreMinigame.new 3 (fun i => if i = 2 then 2 else 0)).ui 1).next = 2
      ∧ ((OreMinigame.new 3 (fun i => if i = 2 then 2 else 0)).ui 1).failed
          = false
      ∧ (((OreMinigame.new 3 (fun i => if i = 2 then 2 else 0)).ui 1).ui
          1).is_failed = false
      ∧ (((OreMinigame.new 3 (fun i => if i = 2 then 2 else 0)).ui 1).ui 1)
        = ((OreMinigame.new 3 (fun i => if i = 2 then 2 else 0)).ui 1) := by
  decide

/-- C3 (amended): a press only registers on an enabled button
(`value >= next`).  Pressing `v = next` increments `next` (the session
is solved exactly when `next` exceeds `difficulty`); pressing an
enabled `v` greater than `next` fails the session; pressing an
already-accepted `v < next` is impossible in the UI and leaves the
state unchanged.  Pressing `1, 2, …, difficulty` in ascending order
from a fresh session yields a solved session. -/
theorem C3_press_semantics (om : OreMinigame) (v : ℕ) (o : List ℕ)
    (d : ℕ) :
    (om.ui v = if v < om.next then om
      else if v = om.next then { om with next := om.next + 1 }
      else { om with failed := true })
    ∧ (om.is_solved = true ↔ om.difficulty < om.next)
    ∧ ((List.range' 1 d).foldl OreMinigame.ui ⟨o, 1, d, false⟩).is_solved
        = true
    ∧ ((List.range' 1 d).foldl OreMinigame.ui ⟨o, 1, d, false⟩).next
        = d + 1 := by
  refine ⟨?_, ?_, ?_, ?_⟩
  · by_cases h1 : om.next ≤ v
    · by_cases h2 : v = om.next
      · subst h2
        simp [OreMinigame.ui]
      · have h3 : ¬v < om.next := by omega
        simp [OreMinigame.ui, h1, h2, h3]
    · have h3 : v < om.next := by omega
      simp [OreMinigame.ui, h1, h3]
  · simp [OreMinigame.is_solved]
  · rw [foldl_ui_ascending]
    simp [OreMinigame.is_solved]
  · rw [foldl_ui_ascending]
    show 1 + d = d + 1
    omega

/-- Exchanging two in-bounds positions of a list permutes it. -/
theorem listSwap_perm (l : List ℕ) (i j : ℕ) :
    List.Perm (listSwap l i j) l := by
  cases hi : l[i]? with
  | none => simp [listSwap, List.get?_eq_getElem?, hi]
  | some x =>
      cases hj : l[j]? with
      | none => simp [listSwap, List.get?_eq_getElem?, hi, hj]
      | some y =>
          simp only [listSwap, List.get?_eq_getElem?, hi, hj]
          obtain ⟨hi', hxi⟩ := List.getElem?_eq_some.1 hi
          obtain ⟨hj', hyj⟩ := List.getElem?_eq_some.1 hj
          rw [List.perm_iff_count]
          intro b
          have hj'' : j < (l.set i y).length := by simpa using hj'
          rw [List.count_set x b (l.set i y) j hj'',
            List.count_set y b l i hi']
          have hsj : (l.set i y)[j] = y := by
            rw [List.getElem_set]
            by_cases hij : i = j
            · simp [hij]
            · simp [hij, hyj]
          rw [hsj, hxi]
          by_cases hxb : x = b
          · have hmem : b ∈ l := by
              rw [← hxb, ← hxi]
              exact List.getElem_mem hi'
            have hcount : 0 < List.count b l := List.count_pos_iff.2 hmem
            by_cases hyb : y = b <;> simp [hxb, hyb] <;> omega
          · by_cases hyb : y = b <;> simp [hxb, hyb]

/-- The Fisher–Yates loop permutes its input. -/
theorem shuffleAux_perm (rng : ℕ → ℕ) :
    ∀ (k : ℕ) (l : List ℕ), List.Perm (shuffleAux rng l k) l := by
  intro k
  induction k with
  | zero => intro l; exact List.Perm.refl l
  | succ k ih =>
      intro l
      rw [shuffleAux]
      exact (ih _).trans (listSwap_perm l (k + 1) (rng (k + 1) % (k + 2)))

/-- `shuffle` permutes its input. -/
theorem shuffle_perm (l : List ℕ) (rng : ℕ → ℕ) :
    List.Perm (shuffle l rng) l :=
  shuffleAux_perm rng (l.length - 1) l

/-- C4: resetting a solved or failed minigame yields a fresh session:
`next = 1`, `failed = false`, the difficulty is preserved, and the new
order is a permutation of `1..=difficulty`. -/
theorem C4_reset_fresh (om : OreMinigame) (rng : ℕ → ℕ)
    (_h : om.is_solved = true ∨ om.is_failed = true) :
    (om.reset rng).next = 1
      ∧ (om.reset rng).failed = false
      ∧ (om.reset rng).difficulty = om.difficulty
      ∧ List.Perm (om.reset rng).order (List.range' 1 om.difficulty) :=
  ⟨rfl, rfl, rfl, shuffle_perm (List.range' 1 om.difficulty) rng⟩

/-- C4 witness: resetting a concrete solved difficulty-3 session. -/
theorem C4_reset_fresh_witness :
    ((OreMinigame.mk [3, 1, 2] 4 3 false).is_solved = true
        ∨ (OreMinigame.mk [3, 1, 2] 4 3 false).is_failed = true)
      ∧ ((OreMinigame.mk [3, 1, 2] 4 3 false).reset (fun _ => 0)).next = 1
      ∧ ((OreMinigame.mk [3, 1, 2] 4 3 false).reset (fun _ => 0)).failed
          = false
      ∧ ((OreMinigame.mk [3, 1, 2] 4 3 false).reset
          (fun _ => 0)).difficulty
          = (OreMinigame.mk [3, 1, 2] 4 3 false).difficulty
      ∧ List.Perm
          ((OreMinigame.mk [3, 1, 2] 4 3 false).reset (fun _ => 0)).order
          (List.range' 1 (OreMinigame.mk [3, 1, 2] 4 3 false).difficulty) :=
  ⟨Or.inl (by decide),
    C4_reset_fresh (OreMinigame.mk [3, 1, 2] 4 3 false) (fun _ => 0)
      (Or.inl (by decide))⟩

/-- When the timer covers `n` full ticks, the catch-up loop with fuel
`n` performs exactly `n` ticks and leaves `timer - n·tick_rate`. -/
theorem catchUp_full (n : ℕ) : ∀ (s : GameState) (timer : ℚ),
    (n : ℚ) * IdleGame.tick_rate ≤ timer →
    (IdleGame.catchUp s timer n).2.1 = timer - n * IdleGame.tick_rate
      ∧ (IdleGame.catchUp s timer n).2.2 = n := by
  induction n with
  | zero =>
      intro s timer h
      simp [IdleGame.catchUp]
  | succ n ih =>
      intro s timer h
      have htr : (0 : ℚ) < IdleGame.tick_rate := by
        norm_num [IdleGame.tick_rate]
      have hn : (0 : ℚ) ≤ (n : ℚ) * IdleGame.tick_rate :=
        mul_nonneg (Nat.cast_nonneg n) (le_of_lt htr)
      have hcast : ((n : ℚ) + 1) * IdleGame.tick_rate ≤ timer := by
        push_cast at h
        linarith
      have h1 : IdleGame.tick_rate ≤ timer := by nlinarith
      rw [IdleGame.catchUp, if_pos h1]
      obtain ⟨ha, hb⟩ := ih (s.tick IdleGame.tick_rate)
        (timer - IdleGame.tick_rate) (by linarith)
      refine ⟨?_, ?_⟩
      · simp only [ha]
        push_cast
        ring
      · simp only [hb]

/-- C5: when the accumulated balance covers 1000 whole ticks, the
catch-up loop of `IdleGame::update` runs exactly `tick_limit = 100`
iterations and leaves a strictly positive residual in the
accumulator. -/
theorem C5_clock_cap (g : IdleGame) (now : ℤ)
    (h : 1000 * IdleGame.tick_rate
      ≤ g.game_timer + ((now - g.prev_time : ℤ) : ℚ) / 1000) :
    (g.update now).2 = 100
      ∧ (g.update now).1.game_timer
        = g.game_timer + ((now - g.prev_time : ℤ) : ℚ) / 1000
          - 100 * IdleGame.tick_rate
      ∧ 0 < (g.update now).1.game_timer := by
  have hcap : (100 : ℚ) * IdleGame.tick_rate
      ≤ g.game_timer + ((now - g.prev_time : ℤ) : ℚ) / 1000 := by
    have : (0 : ℚ) < IdleGame.tick_rate := by norm_num [IdleGame.tick_rate]
    nlinarith
  obtain ⟨ha, hb⟩ := catchUp_full 100 g.game_state
    (g.game_timer + ((now - g.prev_time : ℤ) : ℚ) / 1000)
    (by push_cast at hcap ⊢; linarith)
  refine ⟨?_, ?_, ?_⟩
  · simpa [IdleGame.update, IdleGame.tick_limit] using hb
  · simpa [IdleGame.update, IdleGame.tick_limit] using ha
  · have heq : (g.update now).1.game_timer
        = g.game_timer + ((now - g.prev_time : ℤ) : ℚ) / 1000
          - 100 * IdleGame.tick_rate := by
      simpa [IdleGame.update, IdleGame.tick_limit] using ha
    rw [heq]
    have : (0 : ℚ) < IdleGame.tick_rate := by norm_num [IdleGame.tick_rate]
    nlinarith

/-- C5 witness: an idle game at timestamp 0 with an empty accumulator,
updated at `now = 50000` milliseconds (50 seconds = 1000 ticks). -/
theorem C5_clock_cap_witness :
    (1000 * IdleGame.tick_rate
        ≤ sampleIdle.game_timer
          + ((50000 - sampleIdle.prev_time : ℤ) : ℚ) / 1000)
      ∧ (sampleIdle.update 50000).2 = 100
      ∧ (sampleIdle.update 50000).1.game_timer
        = sampleIdle.game_timer
          + ((50000 - sampleIdle.prev_time : ℤ) : ℚ) / 1000
          - 100 * IdleGame.tick_rate
      ∧ 0 < (sampleIdle.update 50000).1.game_timer :=
  ⟨by norm_num [sampleIdle, IdleGame.tick_rate],
    C5_clock_cap sampleIdle 50000
      (by norm_num [sampleIdle, IdleGame.tick_rate])⟩

/-- C6 counterexample: after a 50-second frame (1000 ticks' worth) the
accumulator retains 45 seconds of excess time — it is not discarded —
and a second frame with zero elapsed time consumes 100 further ticks
from that retained balance. -/
theorem C6_counterexample :
    (sampleIdle.update 50000).1.game_timer = 45
      ∧ (sampleIdle.update 50000).1.game_timer ≠ 0
      ∧ ((sampleIdle.update 50000).1.update 50000).2 = 100 := by
  have h1 := catchUp_full 100 sampleIdle.game_state 50
    (by norm_num [IdleGame.tick_rate])
  have htimer : sampleIdle.game_timer
      + ((50000 - sampleIdle.prev_time : ℤ) : ℚ) / 1000 = 50 := by
    norm_num [sampleIdle]
  have hg1 : (sampleIdle.update 50000).1.game_timer = 45 := by
    show (IdleGame.catchUp sampleIdle.game_state
      (sampleIdle.game_timer
        + ((50000 - sampleIdle.prev_time : ℤ) : ℚ) / 1000)
      IdleGame.tick_limit).2.1 = 45
    rw [htimer]
    show (IdleGame.catchUp sampleIdle.game_state 50 100).2.1 = 45
    rw [h1.1]
    norm_num [IdleGame.tick_rate]
  have hprev : (sampleIdle.update 50000).1.prev_time = 50000 := rfl
  refine ⟨hg1, by rw [hg1]; norm_num, ?_⟩
  have h2 := catchUp_full 100 (sampleIdle.update 50000).1.game_state 45
    (by norm_num [IdleGame.tick_rate])
  show (IdleGame.catchUp (sampleIdle.update 50000).1.game_state
    ((sampleIdle.update 50000).1.game_timer
      + ((50000 - (sampleIdle.update 50000).1.prev_time : ℤ) : ℚ) / 1000)
    IdleGame.tick_limit).2.2 = 100
  rw [hg1, hprev]
  have harg : (45 : ℚ) + ((50000 - 50000 : ℤ) : ℚ) / 1000 = 45 := by
    norm_num
  rw [harg]
  exact h2.2

/-- C6 (amended): time beyond the cap is NOT discarded — it stays in
the accumulator (`game_timer` keeps the incoming balance minus the 100
ticks consumed) and a later frame with no new elapsed time consumes up
to 100 further ticks from it. -/
theorem C6_excess_retained (g : IdleGame) (now : ℤ)
    (h : 200 * IdleGame.tick_rate
      ≤ g.game_timer + ((now - g.prev_time : ℤ) : ℚ) / 1000) :
    (g.update now).1.game_timer
      = g.game_timer + ((now - g.prev_time : ℤ) : ℚ) / 1000
        - 100 * IdleGame.tick_rate
      ∧ ((g.update now).1.update now).2 = 100 := by
  have htr : (0 : ℚ) < IdleGame.tick_rate := by
    norm_num [IdleGame.tick_rate]
  have hcap : (100 : ℚ) * IdleGame.tick_rate
      ≤ g.game_timer + ((now - g.prev_time : ℤ) : ℚ) / 1000 := by
    nlinarith
  obtain ⟨ha, hb⟩ := catchUp_full 100 g.game_state
    (g.game_timer + ((now - g.prev_time : ℤ) : ℚ) / 1000)
    (by push_cast at hcap ⊢; linarith)
  have heq : (g.update now).1.game_timer
      = g.game_timer + ((now - g.prev_time : ℤ) : ℚ) / 1000
        - 100 * IdleGame.tick_rate := by
    simpa [IdleGame.update, IdleGame.tick_limit] using ha
  refine ⟨heq, ?_⟩
  have hprev : (g.update now).1.prev_time = now := rfl
  have hresid : (100 : ℚ) * IdleGame.tick_rate
      ≤ (g.update now).1.game_timer
        + ((now - (g.update now).1.prev_time : ℤ) : ℚ) / 1000 := by
    rw [heq, hprev]
    push_cast at h ⊢
    linarith
  obtain ⟨ha2, hb2⟩ := catchUp_full 100 (g.update now).1.game_state
    ((g.update now).1.game_timer
      + ((now - (g.update now).1.prev_time : ℤ) : ℚ) / 1000)
    (by push_cast at hresid ⊢; linarith)
  simpa [IdleGame.update, IdleGame.tick_limit] using hb2

/-- C6 amended-theorem witness: the 50-second frame from the sample
idle game. -/
theorem C6_excess_retained_witness :
    (200 * IdleGame.tick_rate
        ≤ sampleIdle.game_timer
          + ((50000 - sampleIdle.prev_time : ℤ) : ℚ) / 1000)
      ∧ (sampleIdle.update 50000).1.game_timer
        = sampleIdle.game_timer
          + ((50000 - sampleIdle.prev_time : ℤ) : ℚ) / 1000
          - 100 * IdleGame.tick_rate
      ∧ ((sampleIdle.update 50000).1.update 50000).2 = 100 :=
  ⟨by norm_num [sampleIdle, IdleGame.tick_rate],
    C6_excess_retained sampleIdle 50000
      (by norm_num [sampleIdle, IdleGame.tick_rate])⟩

/-- An association list with no entry for `g` contributes a zero
key-sum at `g`. -/
theorem keySum_eq_zero (entries : List (Good × ℚ)) (g : Good)
    (h : entries.any (fun e => e.1 = g) = false) :
    keySum entries g = 0 := by
  induction entries with
  | nil => rfl
  | cons e rest ih =>
      simp only [List.any_cons, Bool.or_eq_false_iff] at h
      rw [keySum_cons, ih h.2]
      simp [decide_eq_false_iff_not.1 h.1]

set_option maxRecDepth 4000 in
/-- The output-side entry fold of the theoretical table, pointwise. -/
theorem tableEntryOut_fold (entries : List (Good × ℚ)) :
    ∀ (tbl : Good → Option (ℚ × ℚ)) (g : Good),
    (entries.foldl tableEntryOut tbl) g
      = if entries.any (fun e => e.1 = g) || (tbl g).isSome
        then some (((tbl g).getD (0, 0)).1 + keySum entries g,
            ((tbl g).getD (0, 0)).2)
        else none := by
  induction entries with
  | nil =>
      intro tbl g
      cases htbl : tbl g <;> simp [keySum, htbl]
  | cons e rest ih =>
      intro tbl g
      rw [List.foldl_cons, ih (tableEntryOut tbl e) g, keySum_cons]
      by_cases hg : e.1 = g
      · have hupd : tableEntryOut tbl e g
            = some (((tbl g).getD (0, 0)).1 + e.2,
                ((tbl g).getD (0, 0)).2) := by
          rw [tableEntryOut, if_pos hg.symm, hg]
        rw [hupd]
        simp [hg]
        ring
      · have hupd : tableEntryOut tbl e g = tbl g := by
          rw [tableEntryOut, if_neg (fun hh => hg hh.symm)]
        rw [hupd, if_neg hg]
        simp only [List.any_cons, decide_eq_false hg, Bool.false_or,
          zero_add]

set_option maxRecDepth 4000 in
/-- The input-side entry fold of the theoretical table, pointwise. -/
theorem tableEntryIn_fold (entries : List (Good × ℚ)) :
    ∀ (tbl : Good → Option (ℚ × ℚ)) (g : Good),
    (entries.foldl tableEntryIn tbl) g
      = if entries.any (fun e => e.1 = g) || (tbl g).isSome
        then some (((tbl g).getD (0, 0)).1,
            ((tbl g).getD (0, 0)).2 + keySum entries g)
        else none := by
  induction entries with
  | nil =>
      intro tbl g
      cases htbl : tbl g <;> simp [keySum, htbl]
  | cons e rest ih =>
      intro tbl g
      rw [List.foldl_cons, ih (tableEntryIn tbl e) g, keySum_cons]
      by_cases hg : e.1 = g
      · have hupd : tableEntryIn tbl e g
            = some (((tbl g).getD (0, 0)).1,
                ((tbl g).getD (0, 0)).2 + e.2) := by
          rw [tableEntryIn, if_pos hg.symm, hg]
        rw [hupd]
        simp [hg]
        ring
      · have hupd : tableEntryIn tbl e g = tbl g := by
          rw [tableEntryIn, if_neg (fun hh => hg hh.symm)]
        rw [hupd, if_neg hg]
        simp only [List.any_cons, decide_eq_false hg, Bool.false_or,
          zero_add]

/-- One producer's contribution to the theoretical table, pointwise. -/
theorem tableAddProducer_apply (p : Producer)
    (tbl : Good → Option (ℚ × ℚ)) (g : Good) :
    tableAddProducer tbl p g
      = if producerMentions p g || (tbl g).isSome
        then some (((tbl g).getD (0, 0)).1 + keySum p.properties.outputs g,
            ((tbl g).getD (0, 0)).2 + keySum p.properties.inputs g)
        else none := by
  unfold tableAddProducer producerMentions
  rw [tableEntryIn_fold, tableEntryOut_fold]
  by_cases hout : p.properties.outputs.any (fun e => e.1 = g) = true
  · simp [hout]
  · have houtf : p.properties.outputs.any (fun e => e.1 = g) = false := by
      cases hb : p.properties.outputs.any (fun e => e.1 = g)
      · rfl
      · exact absurd hb hout
    have hz := keySum_eq_zero p.properties.outputs g houtf
    by_cases hin : p.properties.inputs.any (fun e => e.1 = g) = true
    · cases htbl : tbl g <;> simp [houtf, hin, htbl, hz]
    · have hinf : p.properties.inputs.any (fun e => e.1 = g) = false := by
        cases hb : p.properties.inputs.any (fun e => e.1 = g)
        · rfl
        · exact absurd hb hin
      have hz2 := keySum_eq_zero p.properties.inputs g hinf
      cases htbl : tbl g <;> simp [houtf, hinf, htbl, hz, hz2]

theorem tableStep_producer (tbl : Good → Option (ℚ × ℚ))
    (e : ℕ × Element) (p : Producer)
    (hv : e.2.variant = ElemVariant.Producer p) :
    tableStep tbl e = tableAddProducer tbl p := by
  unfold tableStep
  rw [hv]

theorem tableStep_blank (tbl : Good → Option (ℚ × ℚ)) (e : ℕ × Element)
    (hv : e.2.variant = ElemVariant.Blank) :
    tableStep tbl e = tbl := by
  unfold tableStep
  rw [hv]

theorem tableStep_good (tbl : Good → Option (ℚ × ℚ)) (e : ℕ × Element)
    (a : Good) (hv : e.2.variant = ElemVariant.Good a) :
    tableStep tbl e = tbl := by
  unfold tableStep
  rw [hv]

/-- The element fold of `production_table_theoretical`, pointwise. -/
theorem production_table_fold (es : List (ℕ × Element)) :
    ∀ (tbl : Good → Option (ℚ × ℚ)) (g : Good),
    (es.foldl tableStep tbl) g
      = if elementsMentions es g || (tbl g).isSome
        then some (((tbl g).getD (0, 0)).1 + elementsOutRate es g,
            ((tbl g).getD (0, 0)).2 + elementsInRate es g)
        else none := by
  induction es with
  | nil =>
      intro tbl g
      cases htbl : tbl g <;>
        simp [elementsMentions, elementsOutRate, elementsInRate, htbl]
  | cons e rest ih =>
      intro tbl g
      rw [List.foldl_cons,
        show elementsMentions (e :: rest) g
          = (elemMentions e g || elementsMentions rest g) from rfl,
        show elementsOutRate (e :: rest) g
          = elemOutRate e g + elementsOutRate rest g from rfl,
        show elementsInRate (e :: rest) g
          = elemInRate e g + elementsInRate rest g from rfl]
      cases hv : e.2.variant with
      | Producer p =>
          have hm : elemMentions e g = producerMentions p g := by
            unfold elemMentions
            rw [hv]
          have ho : elemOutRate e g = keySum p.properties.outputs g := by
            unfold elemOutRate
            rw [hv]
          have hi2 : elemInRate e g = keySum p.properties.inputs g := by
            unfold elemInRate
            rw [hv]
          rw [tableStep_producer tbl e p hv, ih (tableAddProducer tbl p) g,
            hm, ho, hi2, tableAddProducer_apply]
          by_cases hp : producerMentions p g = true
          · simp only [hp, Bool.true_or, ite_true, Option.isSome_some,
              Bool.or_true, Option.getD_some, Option.some.injEq,
              Prod.mk.injEq]
            constructor <;> ring
          · have hpf : producerMentions p g = false := by
              cases hb : producerMentions p g
              · rfl
              · exact absurd hb hp
            have hzo : keySum p.properties.outputs g = 0 := by
              apply keySum_eq_zero
              unfold producerMentions at hpf
              exact (Bool.or_eq_false_iff.1 hpf).1
            have hzi : keySum p.properties.inputs g = 0 := by
              apply keySum_eq_zero
              unfold producerMentions at hpf
              exact (Bool.or_eq_false_iff.1 hpf).2
            cases htbl : tbl g <;> simp [hpf, htbl, hzo, hzi]
      | Blank =>
          have hm : elemMentions e g = false := by
            unfold elemMentions
            rw [hv]
          have ho : elemOutRate e g = 0 := by
            unfold elemOutRate
            rw [hv]
          have hi2 : elemInRate e g = 0 := by
            unfold elemInRate
            rw [hv]
          rw [tableStep_blank tbl e hv, ih tbl g, hm, ho, hi2]
          simp
      | Good a =>
          have hm : elemMentions e g = false := by
            unfold elemMentions
            rw [hv]
          have ho : elemOutRate e g = 0 := by
            unfold elemOutRate
            rw [hv]
          have hi2 : elemInRate e g = 0 := by
            unfold elemInRate
            rw [hv]
          rw [tableStep_good tbl e a hv, ih tbl g, hm, ho, hi2]
          simp

/-- C8: the theoretical-rate table maps every good mentioned by some
producer element to the pair (sum of unscaled output rates, sum of
unscaled input rates) over all producer elements, with no throttling;
goods mentioned by no producer are absent from the table. -/
theorem C8_theoretical_rates (s : GameState) (g : Good) :
    s.production_table_theoretical g
      = if elementsMentions s.elements g
        then some (elementsOutRate s.elements g, elementsInRate s.elements g)
        else none := by
  unfold GameState.production_table_theoretical
  rw [production_table_fold]
  simp

/-- C9: the handle-allocation scheme of the source
(`next_window_id = elements.len()`) reuses a removed handle: after
adding two blank windows (handles 0 and 1) and removing handle 1, the
next insertion allocates handle 1 again. -/
theorem C9_handle_reuse :
    ((addBlankWindow (addBlankWindow [])).map Prod.fst = [0, 1])
      ∧ ((elementsRemove (addBlankWindow (addBlankWindow [])) 1).map
          Prod.fst = [0])
      ∧ ((addBlankWindow
          (elementsRemove (addBlankWindow (addBlankWindow [])) 1)).map
          Prod.fst = [0, 1]) :=
  ⟨rfl, rfl, rfl⟩
